import Mathlib

/-!
# Shallow embedding of the shipping-quote-tool core logic

This file embeds, in Lean 4, the algorithmic core of the repository
`servicehinge/shipping-quote-tool`:

* `calculate_shipment` — the greedy carton-packing calculator
  (`src/services/product_data.py`, lines 134–188);
* `parse_rate_response` — the FedEx rate parser and its dedup/sort stage
  (`src/services/fedex_api.py`, lines 152–224);
* `parse_shippo_rates` — the Shippo rate parser
  (`src/services/shippo_api.py`, lines 55–97);
* the pricing transform inlined in the quote page
  (`src/pages/quote.py`, lines 205–213).

Modelling conventions:

* Python `int` is modelled by `ℤ`; Python numeric values (`float`) are
  modelled by exact rationals `ℚ`.  Python `round(x, 2)` is modelled as
  exact round-half-to-even at two decimals (`pyRound2`).
* Python's stable `sorted(..., key=...)` (and stable `sorted` with
  `reverse=True`) is modelled by `stableSort`, a structurally recursive
  insertion sort that inserts each element after all earlier elements the
  comparator accepts; for a total, transitive comparator this is exactly
  the (unique) stable sort Python computes.
* Dict `.get(key, default)` on possibly-missing JSON fields is modelled by
  `Option` fields together with `Option.getD`.
* Python dicts used as "first-insertion-ordered maps" (`best_by_type` in
  `parse_rate_response`) are modelled by association lists that preserve
  key insertion order.
* Fallible Python code is modelled with `Except`: the only exception the
  packing calculator can raise is a `ZeroDivisionError`, in the remainder
  step, when the smallest option's `sets_per_carton` is `0`.
* The FedEx parser's `transit_days` / `delivery_date` fields are derived
  from the wall clock (`date.today()`); they are display-only fields not
  touched by any property below and are omitted from the embedding.
-/

/-! ## Generic stable sort (model of Python's stable `sorted`) -/

/-- Insert `a` into `l` after every element `b` with `le b a`.  When `l` is
the already-processed (earlier-in-input) part, this keeps input order among
comparator-equal elements, exactly like Python's stable sort. -/
def insertStable (le : α → α → Bool) (a : α) : List α → List α
  | [] => [a]
  | b :: l => if le b a then b :: insertStable le a l else a :: b :: l

/-- Stable sort: fold the input left-to-right through `insertStable`.
For a total, transitive Boolean comparator this coincides with Python's
`sorted(input, key=...)`. -/
def stableSort (le : α → α → Bool) (l : List α) : List α :=
  l.foldl (fun acc a => insertStable le a acc) []

/-! ## Rounding (model of Python `round(x, 2)`) -/

/-- Model of Python `math.ceil` on an exact rational.  Written via
`Rat.floor` so that it evaluates by kernel reduction; `mathCeil_eq_ceil`
below identifies it with `Int.ceil`. -/
def mathCeil (x : ℚ) : ℤ :=
  -Rat.floor (-x)

/-- Round a rational to the nearest integer, halves to even
(Python's `round` on exact values). -/
def roundHalfEven (x : ℚ) : ℤ :=
  let f := Rat.floor x
  if x - f < 1/2 then f
  else if (1:ℚ)/2 < x - f then f + 1
  else if f % 2 = 0 then f else f + 1

/-- Model of Python `round(x, 2)`: round half-to-even at two decimal
places. -/
def pyRound2 (x : ℚ) : ℚ :=
  (roundHalfEven (100 * x) : ℚ) / 100

/-! ## Packing calculator (`src/services/product_data.py`) -/

/-- One carton configuration (`{"sets_per_carton": ..., "weight_kg": ...}`). -/
structure PackingOption where
  sets_per_carton : ℤ
  weight_kg : ℚ
deriving DecidableEq, Repr

/-- One breakdown entry produced by `calculate_shipment`. -/
structure PackingBreakdown where
  sets_per_carton : ℤ
  weight_kg : ℚ
  count : ℤ
deriving DecidableEq, Repr

/-- The dict returned by `calculate_shipment`. -/
structure ShipmentResult where
  num_cartons : ℤ
  total_weight_kg : ℚ
  breakdown : List PackingBreakdown
deriving DecidableEq, Repr

/-- The only exception `calculate_shipment` can raise. -/
inductive PyError where
  | zeroDivisionError
deriving DecidableEq, Repr

deriving instance DecidableEq for Except

/-- The `for opt in opts_sorted:` loop of `calculate_shipment`
(lines 159–170): skip when `s <= 0 or remaining <= 0`; otherwise take
`count = remaining // s` and record an entry when `count > 0`, subtracting
`count * s` from `remaining`.  Returns the breakdown entries in order
together with the final `remaining`. -/
def greedyLoop (remaining : ℤ) : List PackingOption → List PackingBreakdown × ℤ
  | [] => ([], remaining)
  | opt :: rest =>
    if opt.sets_per_carton ≤ 0 ∨ remaining ≤ 0 then
      greedyLoop remaining rest
    else
      let count := Int.fdiv remaining opt.sets_per_carton
      if 0 < count then
        let r := greedyLoop (remaining - count * opt.sets_per_carton) rest
        (⟨opt.sets_per_carton, opt.weight_kg, count⟩ :: r.1, r.2)
      else
        greedyLoop remaining rest

/-- Comparator for `sorted(options, key=lambda o: o["sets_per_carton"],
reverse=True)`: stable descending by `sets_per_carton`. -/
def optDesc (a b : PackingOption) : Bool :=
  b.sets_per_carton ≤ a.sets_per_carton

/-- Lines 181–187: `num_cartons = sum(counts)`,
`total_weight_kg = round(sum(w*c), 2)`. -/
def mkShipmentResult (breakdown : List PackingBreakdown) : ShipmentResult :=
  { num_cartons := (breakdown.map (·.count)).sum
    total_weight_kg := pyRound2 ((breakdown.map (fun b => b.weight_kg * (b.count : ℚ))).sum)
    breakdown := breakdown }

/-- `calculate_shipment(options, quantity_sets)`
(`src/services/product_data.py`, lines 134–188).

Sorts the options descending by `sets_per_carton` (stable), runs the greedy
loop, then — when `remaining > 0` and the sorted list is non-empty — packs
the remainder into the last (smallest) option with
`count = math.ceil(remaining / s)`; if that option has
`sets_per_carton == 0` Python raises `ZeroDivisionError`. -/
def calculate_shipment (options : List PackingOption) (quantity_sets : ℤ) :
    Except PyError ShipmentResult :=
  let opts_sorted := stableSort optDesc options
  let lr := greedyLoop quantity_sets opts_sorted
  if 0 < lr.2 then
    match opts_sorted.getLast? with
    | none => .ok (mkShipmentResult lr.1)
    | some smallest =>
      if smallest.sets_per_carton = 0 then
        .error .zeroDivisionError
      else
        .ok (mkShipmentResult (lr.1 ++
          [⟨smallest.sets_per_carton, smallest.weight_kg,
            mathCeil ((lr.2 : ℚ) / (smallest.sets_per_carton : ℚ))⟩]))
  else
    .ok (mkShipmentResult lr.1)

/-- `Rat.floor` is the floor of the `FloorRing ℚ` instance. -/
theorem ratFloor_eq (q : ℚ) : Rat.floor q = ⌊q⌋ := rfl

/-- `mathCeil` is the mathematical ceiling. -/
theorem mathCeil_eq (q : ℚ) : mathCeil q = ⌈q⌉ := by
  rw [mathCeil, ratFloor_eq, ← Int.ceil_neg, neg_neg]

example :
    calculate_shipment [⟨3, 933/100⟩] 9 =
      .ok ⟨3, 2799/100, [⟨3, 933/100, 3⟩]⟩ := by
  simp +decide only [calculate_shipment, greedyLoop, stableSort, insertStable, optDesc,
    mkShipmentResult, List.foldl, List.getLast?, List.map, List.sum, List.foldr,
    Except.ok.injEq, ShipmentResult.mk.injEq, PackingBreakdown.mk.injEq]
  norm_num [pyRound2, roundHalfEven, mathCeil, ratFloor_eq, Int.fdiv_eq_ediv]

example :
    calculate_shipment [⟨4, 15⟩, ⟨1, 45/10⟩] 5 =
      .ok ⟨2, 195/10, [⟨4, 15, 1⟩, ⟨1, 45/10, 1⟩]⟩ := by
  simp +decide only [calculate_shipment, greedyLoop, stableSort, insertStable, optDesc,
    mkShipmentResult, List.foldl, List.getLast?, List.map, List.sum, List.foldr,
    Except.ok.injEq, ShipmentResult.mk.injEq, PackingBreakdown.mk.injEq]
  norm_num [pyRound2, roundHalfEven, mathCeil, ratFloor_eq, Int.fdiv_eq_ediv]

example :
    calculate_shipment [⟨4, 15⟩, ⟨2, 8⟩] 5 =
      .ok ⟨2, 23, [⟨4, 15, 1⟩, ⟨2, 8, 1⟩]⟩ := by
  simp +decide only [calculate_shipment, greedyLoop, stableSort, insertStable, optDesc,
    mkShipmentResult, List.foldl, List.getLast?, List.map, List.sum, List.foldr,
    Except.ok.injEq, ShipmentResult.mk.injEq, PackingBreakdown.mk.injEq]
  norm_num [pyRound2, roundHalfEven, mathCeil, ratFloor_eq, Int.fdiv_eq_ediv]

/-! ## FedEx rate parser (`src/services/fedex_api.py`, lines 152–224) -/

/-- One element of a detail's `ratedShipmentDetails` array.  `rateType` and
`totalNetCharge` model `rd.get("rateType")` and
`float(best_rate.get("totalNetCharge", 0))`; `currency` models
`best_rate.get("currency", "TWD")`. -/
structure RatedShipmentDetail where
  rateType : Option String
  totalNetCharge : Option ℚ
  currency : Option String
deriving DecidableEq, Repr

/-- One element of `output.rateReplyDetails`.  The `commit.dateDetail`
fields feed only the wall-clock-dependent display fields `transit_days` /
`delivery_date` and are omitted (see the header). -/
structure RateReplyDetail where
  serviceType : Option String
  serviceName : Option String
  ratedShipmentDetails : List RatedShipmentDetail
deriving DecidableEq, Repr

/-- One parsed rate quote (the dicts appended to `raw_results`), without
the wall-clock display fields. -/
structure RawQuote where
  service_type : String
  service_name : String
  total_charge : ℚ
  currency : String
deriving DecidableEq, Repr

/-- The `for rd in rated_details: if rd.get("rateType") == "ACCOUNT":
best_rate = rd; break` loop (lines 177–180). -/
def findAccountRate : List RatedShipmentDetail → Option RatedShipmentDetail
  | [] => none
  | rd :: rest =>
    if rd.rateType = some "ACCOUNT" then some rd else findAccountRate rest

/-- Lines 176–184: prefer the first `ACCOUNT`-typed rated detail, else the
first rated detail; `none` when `ratedShipmentDetails` is empty. -/
def bestRateOf (rds : List RatedShipmentDetail) : Option RatedShipmentDetail :=
  match findAccountRate rds with
  | some rd => some rd
  | none => rds.head?

/-- Lines 172 and 186–187 and 205–214: build the `raw_results` entry for
one detail from its selected best rate. -/
def mkRawQuote (detail : RateReplyDetail) (rd : RatedShipmentDetail) : RawQuote :=
  let service_type := detail.serviceType.getD ""
  { service_type := service_type
    service_name := detail.serviceName.getD service_type
    total_charge := rd.totalNetCharge.getD 0
    currency := rd.currency.getD "TWD" }

/-- The `for detail in rate_details:` loop (lines 171–214): a detail with
no usable best rate is skipped (`continue`), otherwise an entry is
appended. -/
def parseRawResults : List RateReplyDetail → List RawQuote
  | [] => []
  | detail :: rest =>
    match bestRateOf detail.ratedShipmentDetails with
    | none => parseRawResults rest
    | some rd => mkRawQuote detail rd :: parseRawResults rest

/-- One step of the `for r in raw_results:` dedup loop (lines 218–221) on
the insertion-ordered dict `best_by_type`: replace the entry for an
existing key only when the new charge is strictly smaller, else append a
new key at the end. -/
def updateBest : List (String × RawQuote) → RawQuote → List (String × RawQuote)
  | [], r => [(r.service_type, r)]
  | (k, v) :: rest, r =>
    if k = r.service_type then
      if r.total_charge < v.total_charge then (k, r) :: rest
      else (k, v) :: rest
    else
      (k, v) :: updateBest rest r

/-- Comparator for `sorted(best_by_type.values(), key=lambda x:
x["total_charge"])`: stable ascending by `total_charge`. -/
def chargeAsc (a b : RawQuote) : Bool :=
  a.total_charge ≤ b.total_charge

/-- The dedup-and-sort stage of `parse_rate_response` (lines 216–224); this
is the spec's `normalize_rates`. -/
def normalize_rates (raw : List RawQuote) : List RawQuote :=
  stableSort chargeAsc ((raw.foldl updateBest []).map Prod.snd)

/-- `parse_rate_response(response_json)` as a function of
`response_json.get("output", {}).get("rateReplyDetails", [])`. -/
def parse_rate_response (rateReplyDetails : List RateReplyDetail) : List RawQuote :=
  normalize_rates (parseRawResults rateReplyDetails)

example :
    normalize_rates [⟨"A", "A", 100, "TWD"⟩, ⟨"A", "A", 90, "TWD"⟩, ⟨"B", "B", 200, "TWD"⟩] =
      [⟨"A", "A", 90, "TWD"⟩, ⟨"B", "B", 200, "TWD"⟩] := by
  simp +decide only [normalize_rates, stableSort, insertStable, chargeAsc, updateBest,
    List.foldl, List.map]

/-! ## Shippo rate parser (`src/services/shippo_api.py`, lines 55–97) -/

/-- One element of the Shippo `rates` array.  `amount` models the result of
`float(rate.get("amount", "0"))`: `none` when the string does not parse
(the `except` branch), `some q` when it parses to `q`; a missing `amount`
key is `some 0` (default string `"0"`). -/
structure ShippoRate where
  amount : Option ℚ
  provider : Option String
  servicelevel_name : Option String
  servicelevel_token : Option String
  estimated_days : Option String
deriving DecidableEq, Repr

/-- One parsed Shippo result dict. -/
structure ShippoResult where
  provider : String
  service_name : String
  service_token : String
  amount_usd : ℚ
  estimated_days : String
deriving DecidableEq, Repr

/-- The `for rate in rates_raw:` loop (lines 72–93): skip entries whose
amount does not parse (`continue` in the `except`) and entries with
`amount <= 0`. -/
def shippoLoop : List ShippoRate → List ShippoResult
  | [] => []
  | rate :: rest =>
    match rate.amount with
    | none => shippoLoop rest
    | some amount =>
      if amount ≤ 0 then shippoLoop rest
      else
        { provider := rate.provider.getD ""
          service_name := rate.servicelevel_name.getD ""
          service_token := rate.servicelevel_token.getD ""
          amount_usd := amount
          estimated_days := rate.estimated_days.getD "N/A" } :: shippoLoop rest

/-- Comparator for `results.sort(key=lambda r: r["amount_usd"])`. -/
def amountAsc (a b : ShippoResult) : Bool :=
  a.amount_usd ≤ b.amount_usd

/-- `parse_shippo_rates(response_json)` as a function of
`response_json.get("rates", [])`. -/
def parse_shippo_rates (rates : List ShippoRate) : List ShippoResult :=
  stableSort amountAsc (shippoLoop rates)

/-! ## Pricing transform (`src/pages/quote.py`, lines 205–213) -/

/-- The three prices computed per displayed rate. -/
structure PricingResult where
  usd_cost : ℚ
  quoted_price_usd : ℚ
  cost_per_kg : ℚ
deriving DecidableEq, Repr

/-- Lines 206–213 of `src/pages/quote.py`:
`usd_cost = cost_ntd / current_exchange if current_exchange > 0 else 0`,
`quoted_usd = usd_cost * (1 + current_markup / 100)`,
`cost_per_kg = cost_ntd / total_weight_kg if total_weight_kg > 0 else 0`. -/
def quote_pricing (cost_ntd exchange_rate markup_percent total_weight_kg : ℚ) :
    PricingResult :=
  { usd_cost := if 0 < exchange_rate then cost_ntd / exchange_rate else 0
    quoted_price_usd :=
      (if 0 < exchange_rate then cost_ntd / exchange_rate else 0) * (1 + markup_percent / 100)
    cost_per_kg := if 0 < total_weight_kg then cost_ntd / total_weight_kg else 0 }

example : (quote_pricing 3000 30 15 1).usd_cost = 100 := by
  norm_num [quote_pricing]

example : (quote_pricing 3000 30 15 1).quoted_price_usd = 115 := by
  norm_num [quote_pricing]

example : (quote_pricing 3000 0 15 1).usd_cost = 0 := by
  norm_num [quote_pricing]

/-! ## Shared lemmas about the stable sort -/

theorem insertStable_perm (le : α → α → Bool) (a : α) (l : List α) :
    (insertStable le a l).Perm (a :: l) := by
  induction l with
  | nil => simp [insertStable]
  | cons b l ih =>
    rw [insertStable]
    split
    · exact ((ih.cons b).trans (List.Perm.swap a b l))
    · exact List.Perm.refl _

theorem stableSort_perm (le : α → α → Bool) (l : List α) :
    (stableSort le l).Perm l := by
  suffices h : ∀ l acc : List α,
      (l.foldl (fun acc a => insertStable le a acc) acc).Perm (acc ++ l) by
    simpa using h l []
  intro l
  induction l with
  | nil => simp
  | cons a l ih =>
    intro acc
    refine (ih (insertStable le a acc)).trans ?_
    refine (List.Perm.append_right l (insertStable_perm le a acc)).trans ?_
    simpa using List.perm_middle.symm

theorem mem_stableSort (le : α → α → Bool) (l : List α) (x : α) :
    x ∈ stableSort le l ↔ x ∈ l :=
  (stableSort_perm le l).mem_iff

theorem insertStable_pairwise (le : α → α → Bool)
    (htot : ∀ a b, le a b ∨ le b a)
    (htrans : ∀ a b c, le a b = true → le b c = true → le a c = true)
    (a : α) (l : List α) (h : l.Pairwise (le · ·)) :
    (insertStable le a l).Pairwise (le · ·) := by
  induction l with
  | nil => simp [insertStable]
  | cons b l ih =>
    rw [insertStable]
    rcases List.pairwise_cons.mp h with ⟨hb, hl⟩
    by_cases hba : le b a
    · rw [if_pos hba]
      refine List.pairwise_cons.mpr ⟨?_, ih hl⟩
      intro x hx
      rcases List.mem_cons.mp ((insertStable_perm le a l).mem_iff.mp hx) with hxa | hxl
      · subst hxa; exact hba
      · exact hb x hxl
    · rw [if_neg hba]
      have hab : le a b := (htot a b).resolve_right (by simpa using hba)
      refine List.pairwise_cons.mpr ⟨?_, h⟩
      intro x hx
      rcases List.mem_cons.mp hx with hxb | hxl
      · subst hxb; exact hab
      · exact htrans a b x hab (hb x hxl)

theorem stableSort_pairwise (le : α → α → Bool)
    (htot : ∀ a b, le a b ∨ le b a)
    (htrans : ∀ a b c, le a b = true → le b c = true → le a c = true)
    (l : List α) : (stableSort le l).Pairwise (le · ·) := by
  suffices h : ∀ l acc : List α, acc.Pairwise (le · ·) →
      (l.foldl (fun acc a => insertStable le a acc) acc).Pairwise (le · ·) by
    exact h l [] List.Pairwise.nil
  intro l
  induction l with
  | nil => intro acc hacc; simpa using hacc
  | cons a l ih =>
    intro acc hacc
    exact ih _ (insertStable_pairwise le htot htrans a acc hacc)

/-! ## Shared lemmas about the greedy loop -/

theorem greedyLoop_count_pos (remaining : ℤ) (opts : List PackingOption) :
    ∀ b ∈ (greedyLoop remaining opts).1, 0 < b.count := by
  induction opts generalizing remaining with
  | nil => intro b hb; simp [greedyLoop] at hb
  | cons opt rest ih =>
    intro b hb
    simp only [greedyLoop] at hb
    split at hb
    · exact ih remaining b hb
    · split at hb
      · rcases List.mem_cons.mp hb with hb | hb
        · subst hb; assumption
        · exact ih _ b hb
      · exact ih remaining b hb

theorem greedyLoop_nil_remaining (remaining : ℤ) (opts : List PackingOption)
    (h : (greedyLoop remaining opts).1 = []) :
    (greedyLoop remaining opts).2 = remaining := by
  induction opts generalizing remaining with
  | nil => simp [greedyLoop]
  | cons opt rest ih =>
    simp only [greedyLoop] at h ⊢
    by_cases hc : opt.sets_per_carton ≤ 0 ∨ remaining ≤ 0
    · rw [if_pos hc] at h ⊢
      exact ih remaining h
    · rw [if_neg hc] at h ⊢
      by_cases hcount : 0 < Int.fdiv remaining opt.sets_per_carton
      · rw [if_pos hcount] at h
        simp at h
      · rw [if_neg hcount] at h ⊢
        exact ih remaining h

theorem greedyLoop_mem_opts (remaining : ℤ) (opts : List PackingOption) :
    ∀ b ∈ (greedyLoop remaining opts).1, ∃ o ∈ opts,
      b.sets_per_carton = o.sets_per_carton ∧ b.weight_kg = o.weight_kg := by
  induction opts generalizing remaining with
  | nil => intro b hb; simp [greedyLoop] at hb
  | cons opt rest ih =>
    intro b hb
    simp only [greedyLoop] at hb
    split at hb
    · rcases ih remaining b hb with ⟨o, ho, h1, h2⟩
      exact ⟨o, List.mem_cons_of_mem _ ho, h1, h2⟩
    · split at hb
      · rcases List.mem_cons.mp hb with hb | hb
        · subst hb; exact ⟨opt, List.mem_cons_self _ _, rfl, rfl⟩
        · rcases ih _ b hb with ⟨o, ho, h1, h2⟩
          exact ⟨o, List.mem_cons_of_mem _ ho, h1, h2⟩
      · rcases ih remaining b hb with ⟨o, ho, h1, h2⟩
        exact ⟨o, List.mem_cons_of_mem _ ho, h1, h2⟩

theorem greedyLoop_skip (remaining : ℤ) (opts : List PackingOption)
    (h : remaining ≤ 0) : greedyLoop remaining opts = ([], remaining) := by
  induction opts with
  | nil => simp [greedyLoop]
  | cons opt rest ih =>
    rw [greedyLoop, if_pos (Or.inr h)]
    exact ih

/-! ## Shared lemmas about rounding -/

theorem roundHalfEven_ge_floor (x : ℚ) : ⌊x⌋ ≤ roundHalfEven x := by
  rw [roundHalfEven, ratFloor_eq]
  split
  · exact le_refl _
  · split
    · omega
    · split
      · exact le_refl _
      · omega

theorem pyRound2_ge (x : ℚ) (h : 1/100 ≤ x) : 1/100 ≤ pyRound2 x := by
  rw [pyRound2]
  have h1 : (1 : ℤ) ≤ ⌊100 * x⌋ := by
    rw [Int.le_floor]
    push_cast
    linarith
  have h2 : (1 : ℤ) ≤ roundHalfEven (100 * x) := le_trans h1 (roundHalfEven_ge_floor _)
  have h3 : (1 : ℚ) ≤ (roundHalfEven (100 * x) : ℚ) := by exact_mod_cast h2
  linarith

/-! ## Small arithmetic helpers -/

theorem one_le_sum_of_forall (l : List ℤ) (hne : l ≠ []) (h : ∀ x ∈ l, 1 ≤ x) :
    1 ≤ l.sum := by
  cases l with
  | nil => exact absurd rfl hne
  | cons x l =>
    rw [List.sum_cons]
    have hx : 1 ≤ x := h x (List.mem_cons_self _ _)
    have hl : 0 ≤ l.sum :=
      List.sum_nonneg fun y hy => le_trans (by norm_num) (h y (List.mem_cons_of_mem _ hy))
    omega

theorem hundredth_le_sum_of_forall (l : List ℚ) (hne : l ≠ []) (h : ∀ x ∈ l, 1/100 ≤ x) :
    1/100 ≤ l.sum := by
  cases l with
  | nil => exact absurd rfl hne
  | cons x l =>
    rw [List.sum_cons]
    have hx : 1/100 ≤ x := h x (List.mem_cons_self _ _)
    have hl : 0 ≤ l.sum :=
      List.sum_nonneg fun y hy => le_trans (by norm_num) (h y (List.mem_cons_of_mem _ hy))
    linarith

theorem pyRound2_zero : pyRound2 0 = 0 := by
  rw [pyRound2, roundHalfEven]
  norm_num [ratFloor_eq]

/-! ## Claims about the pricing transform and the trivial cases -/

/-- C3: for every cost, exchange_rate and markup_percent, the pricing
transform computes `usd_cost = 0` when `exchange_rate <= 0` and
`cost / exchange_rate` otherwise, `quoted_price_usd = usd_cost *
(1 + markup_percent/100)`, and `cost_per_kg = cost / total_weight_kg` when
`total_weight_kg > 0` and `0` otherwise (total, so it raises no
exception). -/
theorem quote_pricing_spec (cost exchange_rate markup_percent total_weight_kg : ℚ) :
    (quote_pricing cost exchange_rate markup_percent total_weight_kg).usd_cost =
      (if exchange_rate ≤ 0 then 0 else cost / exchange_rate) ∧
    (quote_pricing cost exchange_rate markup_percent total_weight_kg).quoted_price_usd =
      (quote_pricing cost exchange_rate markup_percent total_weight_kg).usd_cost *
        (1 + markup_percent / 100) ∧
    (quote_pricing cost exchange_rate markup_percent total_weight_kg).cost_per_kg =
      (if 0 < total_weight_kg then cost / total_weight_kg else 0) := by
  refine ⟨?_, rfl, rfl⟩
  rw [quote_pricing]
  rcases le_or_lt exchange_rate 0 with h | h
  · rw [if_pos h]
    simp only [if_neg (not_lt.mpr h)]
  · rw [if_neg (not_le.mpr h)]
    simp only [if_pos h]

/-- C7: the rate normalizer applied to an empty input sequence returns the
empty sequence (it is a total function, so no error is raised), and so
does the full FedEx parser on a response with no rate reply details. -/
theorem normalize_rates_empty :
    normalize_rates [] = [] ∧ parse_rate_response [] = [] :=
  ⟨rfl, rfl⟩

/-- C8: for every quantity, `calculate_shipment` with an empty options
list returns `num_cartons = 0`, `total_weight_kg = 0` and an empty
breakdown, raising no error: the greedy loop does nothing and the
remainder step is skipped because `opts_sorted` is empty. -/
theorem calculate_shipment_empty_options (q : ℤ) :
    calculate_shipment [] q = .ok ⟨0, 0, []⟩ := by
  simp [calculate_shipment, stableSort, greedyLoop, mkShipmentResult, pyRound2_zero]

/-- C4 counterexample: at the concrete input `options = []`,
`quantity = 1` — which violates the claimed precondition `options`
non-empty — `calculate_shipment` does not fail with any error: it returns
a successful zero result. -/
theorem calculate_shipment_no_invalid_input_cex :
    calculate_shipment [] 1 = .ok ⟨0, 0, []⟩ ∧
      (calculate_shipment [] 1).isOk = true := by
  constructor
  · simp [calculate_shipment, stableSort, greedyLoop, mkShipmentResult, pyRound2_zero]
  · simp [calculate_shipment, stableSort, greedyLoop, Except.isOk, Except.toBool]

/-- C4 amended: `calculate_shipment` performs no input validation and has
no `InvalidInput` failure.  With an empty options list or a non-positive
quantity it returns the zero result successfully; options with
non-positive `sets_per_carton` are silently skipped by the greedy loop,
and the only exception the function can raise is a `ZeroDivisionError`
(when the remainder step divides by a smallest option whose
`sets_per_carton` is zero). -/
theorem calculate_shipment_no_validation (opts : List PackingOption) (q : ℤ)
    (h : opts = [] ∨ q ≤ 0) :
    calculate_shipment opts q = .ok ⟨0, 0, []⟩ := by
  rcases h with h | h
  · subst h
    simp [calculate_shipment, stableSort, greedyLoop, mkShipmentResult, pyRound2_zero]
  · simp only [calculate_shipment, greedyLoop_skip q (stableSort optDesc opts) h]
    rw [if_neg (not_lt.mpr h)]
    simp [mkShipmentResult, pyRound2_zero]

/-- Witness for C4's amended theorem at a concrete invalid input:
non-positive quantity with a non-empty options list. -/
theorem calculate_shipment_no_validation_witness :
    calculate_shipment [⟨5, 2⟩] (-3) = .ok ⟨0, 0, []⟩ :=
  calculate_shipment_no_validation [⟨5, 2⟩] (-3) (Or.inr (by norm_num))

/-! ## Claim C6: breakdown invariant -/

/-- C6: every `ShipmentResult` produced by `calculate_shipment` — on
options satisfying the data model's constraint that `sets_per_carton` is a
positive integer — has `num_cartons` equal to the sum of the breakdown
counts, and its breakdown contains no zero-count entry. -/
theorem calculate_shipment_invariant (opts : List PackingOption) (q : ℤ)
    (r : ShipmentResult)
    (hs : ∀ o ∈ opts, 0 < o.sets_per_carton)
    (hok : calculate_shipment opts q = .ok r) :
    r.num_cartons = (r.breakdown.map (·.count)).sum ∧
      ∀ b ∈ r.breakdown, b.count ≠ 0 := by
  have hs' : ∀ o ∈ stableSort optDesc opts, 0 < o.sets_per_carton := fun o ho =>
    hs o ((mem_stableSort optDesc opts o).mp ho)
  simp only [calculate_shipment] at hok
  split at hok <;> rename_i hrem
  · split at hok <;> rename_i hlast
    · rw [Except.ok.injEq] at hok
      subst hok
      refine ⟨rfl, fun b hb => ?_⟩
      exact ne_of_gt (greedyLoop_count_pos q _ b hb)
    · split at hok <;> rename_i hzero
      · simp at hok
      · rw [Except.ok.injEq] at hok
        subst hok
        refine ⟨rfl, fun b hb => ?_⟩
        rcases List.mem_append.mp hb with hb | hb
        · exact ne_of_gt (greedyLoop_count_pos q _ b hb)
        · have hbent := List.mem_singleton.mp hb
          subst hbent
          have hsm : 0 < PackingOption.sets_per_carton ‹PackingOption› := by
            exact hs' _ (List.mem_of_mem_getLast? hlast)
          have hpos : 0 < mathCeil
              (((greedyLoop q (stableSort optDesc opts)).2 : ℚ) /
                (PackingOption.sets_per_carton ‹PackingOption› : ℚ)) := by
            rw [mathCeil_eq, Int.ceil_pos]
            apply div_pos
            · exact_mod_cast hrem
            · exact_mod_cast hsm
          exact ne_of_gt hpos
  · rw [Except.ok.injEq] at hok
    subst hok
    exact ⟨rfl, fun b hb => ne_of_gt (greedyLoop_count_pos q _ b hb)⟩

/-- Witness for C6 at a concrete run of `calculate_shipment`. -/
theorem calculate_shipment_invariant_witness :
    (⟨3, 2799/100, [⟨3, 933/100, 3⟩]⟩ : ShipmentResult).num_cartons =
      ((⟨3, 2799/100, [⟨3, 933/100, 3⟩]⟩ : ShipmentResult).breakdown.map (·.count)).sum ∧
    ∀ b ∈ (⟨3, 2799/100, [⟨3, 933/100, 3⟩]⟩ : ShipmentResult).breakdown, b.count ≠ 0 :=
  calculate_shipment_invariant [⟨3, 933/100⟩] 9 ⟨3, 2799/100, [⟨3, 933/100, 3⟩]⟩
    (by
      intro o ho
      rw [List.mem_singleton.mp ho]
      norm_num)
    (by
      simp +decide only [calculate_shipment, greedyLoop, stableSort, insertStable, optDesc,
        mkShipmentResult, List.foldl, List.getLast?, List.map, List.sum, List.foldr,
        Except.ok.injEq, ShipmentResult.mk.injEq, PackingBreakdown.mk.injEq]
      norm_num [pyRound2, roundHalfEven, mathCeil, ratFloor_eq, Int.fdiv_eq_ediv])

/-! ## Claim C5: positivity of the result -/

/-- C5 counterexample: all preconditions of the claim hold (one option,
positive `sets_per_carton`, positive `weight_kg = 0.001`, quantity `1`),
yet the returned `total_weight_kg` is `0`, because
`round(sum(w*c), 2) = round(0.001, 2) = 0`. -/
theorem calculate_shipment_pos_cex :
    calculate_shipment [⟨1, 1/1000⟩] 1 = .ok ⟨1, 0, [⟨1, 1/1000, 1⟩]⟩ ∧
      ¬ (0 : ℚ) < (0 : ℚ) := by
  constructor
  · simp +decide only [calculate_shipment, greedyLoop, stableSort, insertStable, optDesc,
      mkShipmentResult, List.foldl, List.getLast?, List.map, List.sum, List.foldr,
      Except.ok.injEq, ShipmentResult.mk.injEq, PackingBreakdown.mk.injEq]
    norm_num [pyRound2, roundHalfEven, mathCeil, ratFloor_eq, Int.fdiv_eq_ediv]
  · exact lt_irrefl 0

/-- C5 amended: for every non-empty options list with all
`sets_per_carton` positive and all `weight_kg ≥ 0.01` (one display
decimal-step above zero, so that rounding to two decimals cannot collapse
the total to zero), and every quantity `≥ 1`, `calculate_shipment` returns
successfully with `num_cartons ≥ 1` and `total_weight_kg > 0`. -/
theorem calculate_shipment_pos (opts : List PackingOption) (q : ℤ)
    (hne : opts ≠ [])
    (hs : ∀ o ∈ opts, 0 < o.sets_per_carton)
    (hw : ∀ o ∈ opts, 1/100 ≤ o.weight_kg)
    (hq : 1 ≤ q) :
    ∃ r, calculate_shipment opts q = .ok r ∧
      1 ≤ r.num_cartons ∧ 0 < r.total_weight_kg := by
  have hs' : ∀ o ∈ stableSort optDesc opts, 0 < o.sets_per_carton := fun o ho =>
    hs o ((mem_stableSort optDesc opts o).mp ho)
  have hw' : ∀ o ∈ stableSort optDesc opts, 1/100 ≤ o.weight_kg := fun o ho =>
    hw o ((mem_stableSort optDesc opts o).mp ho)
  have hcount : ∀ b ∈ (greedyLoop q (stableSort optDesc opts)).1, 1 ≤ b.count :=
    fun b hb => greedyLoop_count_pos q _ b hb
  have hweight : ∀ b ∈ (greedyLoop q (stableSort optDesc opts)).1, 1/100 ≤ b.weight_kg := by
    intro b hb
    rcases greedyLoop_mem_opts q _ b hb with ⟨o, ho, _, h2⟩
    rw [h2]
    exact hw' o ho
  have hmk : ∀ bd : List PackingBreakdown, bd ≠ [] →
      (∀ b ∈ bd, 1 ≤ b.count) → (∀ b ∈ bd, 1/100 ≤ b.weight_kg) →
      1 ≤ (mkShipmentResult bd).num_cartons ∧ 0 < (mkShipmentResult bd).total_weight_kg := by
    intro bd hbdne hc hwgt
    constructor
    · apply one_le_sum_of_forall
      · simpa using hbdne
      · intro x hx
        rcases List.mem_map.mp hx with ⟨b, hb, hbx⟩
        rw [← hbx]
        exact hc b hb
    · have hsum : 1/100 ≤ (bd.map (fun b => b.weight_kg * (b.count : ℚ))).sum := by
        apply hundredth_le_sum_of_forall
        · simpa using hbdne
        · intro x hx
          rcases List.mem_map.mp hx with ⟨b, hb, hbx⟩
          rw [← hbx]
          have h1 : 1/100 ≤ b.weight_kg := hwgt b hb
          have h2 : (1 : ℚ) ≤ (b.count : ℚ) := by exact_mod_cast hc b hb
          nlinarith
      have := pyRound2_ge _ hsum
      rw [mkShipmentResult]
      have : (0:ℚ) < 1/100 := by norm_num
      calc (0:ℚ) < 1/100 := this
        _ ≤ pyRound2 ((bd.map (fun b => b.weight_kg * (b.count : ℚ))).sum) :=
            pyRound2_ge _ hsum
  rcases lt_or_le 0 ((greedyLoop q (stableSort optDesc opts)).2) with hrem | hrem
  · -- remainder left over: the remainder entry is appended
    have hsne : stableSort optDesc opts ≠ [] := by
      intro hnil
      have hp : opts.Perm [] := (stableSort_perm optDesc opts).symm.trans (by rw [hnil])
      exact hne hp.eq_nil
    obtain ⟨smallest, hlast⟩ : ∃ s, (stableSort optDesc opts).getLast? = some s := by
      cases hsl : (stableSort optDesc opts).getLast? with
      | none => exact absurd (List.getLast?_eq_none_iff.mp hsl) hsne
      | some s => exact ⟨s, rfl⟩
    have hsm : 0 < smallest.sets_per_carton := hs' _ (List.mem_of_mem_getLast? hlast)
    have hcpos : 0 < mathCeil (((greedyLoop q (stableSort optDesc opts)).2 : ℚ) /
        (smallest.sets_per_carton : ℚ)) := by
      rw [mathCeil_eq, Int.ceil_pos]
      apply div_pos
      · exact_mod_cast hrem
      · exact_mod_cast hsm
    refine ⟨mkShipmentResult ((greedyLoop q (stableSort optDesc opts)).1 ++
      [⟨smallest.sets_per_carton, smallest.weight_kg,
        mathCeil (((greedyLoop q (stableSort optDesc opts)).2 : ℚ) /
          (smallest.sets_per_carton : ℚ))⟩]), ?_, ?_⟩
    · simp only [calculate_shipment]
      rw [if_pos hrem, hlast]
      dsimp only
      rw [if_neg (ne_of_gt hsm)]
    · apply hmk
      · simp
      · intro b hb
        rcases List.mem_append.mp hb with hb | hb
        · exact hcount b hb
        · rw [List.mem_singleton.mp hb]
          exact hcpos
      · intro b hb
        rcases List.mem_append.mp hb with hb | hb
        · exact hweight b hb
        · rw [List.mem_singleton.mp hb]
          exact hw' _ (List.mem_of_mem_getLast? hlast)
  · -- no remainder: the loop breakdown itself is non-empty
    have hbdne : (greedyLoop q (stableSort optDesc opts)).1 ≠ [] := by
      intro hnil
      have := greedyLoop_nil_remaining q (stableSort optDesc opts) hnil
      omega
    refine ⟨mkShipmentResult (greedyLoop q (stableSort optDesc opts)).1, ?_, ?_⟩
    · simp only [calculate_shipment]
      rw [if_neg (not_lt.mpr hrem)]
    · exact hmk _ hbdne hcount hweight

/-- Witness for C5's amended theorem at a concrete input. -/
theorem calculate_shipment_pos_witness :
    ∃ r, calculate_shipment [⟨4, 15⟩, ⟨2, 8⟩] 5 = .ok r ∧
      1 ≤ r.num_cartons ∧ 0 < r.total_weight_kg :=
  calculate_shipment_pos [⟨4, 15⟩, ⟨2, 8⟩] 5 (by simp)
    (by
      intro o ho
      rcases List.mem_cons.mp ho with h | h
      · rw [h]; norm_num
      · rw [List.mem_singleton.mp h]; norm_num)
    (by
      intro o ho
      rcases List.mem_cons.mp ho with h | h
      · rw [h]; norm_num
      · rw [List.mem_singleton.mp h]; norm_num)
    (by norm_num)

/-! ## Claim C10: Shippo parser -/

theorem shippoLoop_pos (rates : List ShippoRate) :
    ∀ r ∈ shippoLoop rates, 0 < r.amount_usd := by
  induction rates with
  | nil => intro r hr; simp [shippoLoop] at hr
  | cons rate rest ih =>
    intro r hr
    rw [shippoLoop] at hr
    split at hr
    · exact ih r hr
    · split at hr
      · exact ih r hr
      · rename_i hamt
        rcases List.mem_cons.mp hr with hr | hr
        · subst hr
          simpa using lt_of_not_le hamt
        · exact ih r hr

theorem amountAsc_total (a b : ShippoResult) : amountAsc a b ∨ amountAsc b a := by
  rcases le_total a.amount_usd b.amount_usd with h | h
  · exact Or.inl (by simpa [amountAsc] using h)
  · exact Or.inr (by simpa [amountAsc] using h)

theorem amountAsc_trans (a b c : ShippoResult)
    (hab : amountAsc a b = true) (hbc : amountAsc b c = true) : amountAsc a c = true := by
  rw [amountAsc, decide_eq_true_eq] at hab hbc ⊢
  exact le_trans hab hbc

/-- C10: for every Shippo response, every entry returned by
`parse_shippo_rates` has `amount_usd > 0` (entries whose amount does not
parse or is zero or negative are dropped by the loop), and the returned
list is sorted ascending by `amount_usd`. -/
theorem parse_shippo_rates_spec (rates : List ShippoRate) :
    (∀ r ∈ parse_shippo_rates rates, 0 < r.amount_usd) ∧
      (parse_shippo_rates rates).Pairwise (fun a b => a.amount_usd ≤ b.amount_usd) := by
  constructor
  · intro r hr
    exact shippoLoop_pos rates r
      ((stableSort_perm amountAsc (shippoLoop rates)).mem_iff.mp hr)
  · have hpw := stableSort_pairwise amountAsc amountAsc_total amountAsc_trans (shippoLoop rates)
    exact hpw.imp fun h => by
      rw [amountAsc, decide_eq_true_eq] at h
      exact h

/-- Witness for C10 at a concrete Shippo response: one unparsable entry,
one zero entry, one negative entry, and two kept entries returned in
ascending order. -/
theorem parse_shippo_rates_spec_witness :
    (∀ r ∈ parse_shippo_rates
        [⟨some 7, some "USPS", some "Priority", some "p", some "3"⟩,
         ⟨none, some "UPS", some "Ground", some "g", none⟩,
         ⟨some 0, some "FedEx", some "2Day", some "f", some "2"⟩,
         ⟨some (-2), some "DHL", some "Express", some "d", some "1"⟩,
         ⟨some 3, some "USPS", some "Ground Advantage", some "ga", some "5"⟩],
      0 < r.amount_usd) ∧
      (parse_shippo_rates
        [⟨some 7, some "USPS", some "Priority", some "p", some "3"⟩,
         ⟨none, some "UPS", some "Ground", some "g", none⟩,
         ⟨some 0, some "FedEx", some "2Day", some "f", some "2"⟩,
         ⟨some (-2), some "DHL", some "Express", some "d", some "1"⟩,
         ⟨some 3, some "USPS", some "Ground Advantage", some "ga", some "5"⟩]).Pairwise
        (fun a b => a.amount_usd ≤ b.amount_usd) :=
  parse_shippo_rates_spec _


/-! ## Claim C9: FedEx best-rate selection -/

/-- The `ACCOUNT`-preferring scan is `List.find?` with the `ACCOUNT`
predicate. -/
theorem findAccountRate_eq_find (rds : List RatedShipmentDetail) :
    findAccountRate rds =
      rds.find? (fun rd : RatedShipmentDetail => decide (rd.rateType = some "ACCOUNT")) := by
  induction rds with
  | nil => rfl
  | cons rd rest ih =>
    by_cases h : rd.rateType = some "ACCOUNT"
    · simp [findAccountRate, List.find?_cons, h]
    · simp [findAccountRate, List.find?_cons, h, ih]

/-- The best-rate selector, written with list combinators. -/
theorem bestRateOf_eq_spec (rds : List RatedShipmentDetail) :
    bestRateOf rds =
      match rds.find? (fun rd : RatedShipmentDetail => decide (rd.rateType = some "ACCOUNT")) with
      | some rd => some rd
      | none => rds.head? := by
  rw [bestRateOf, findAccountRate_eq_find]

/-- C9: `parse_rate_response` feeds its dedup/sort stage with one raw
entry per rate-reply detail, built from the first rated shipment detail
whose `rateType` is `"ACCOUNT"` when one exists and from the first rated
shipment detail otherwise; any detail whose `ratedShipmentDetails` is
empty is silently dropped (both selectors return `none` exactly then). -/
theorem parse_rate_response_selection (details : List RateReplyDetail) :
    parse_rate_response details = normalize_rates (parseRawResults details) ∧
    parseRawResults details = details.filterMap (fun d : RateReplyDetail =>
      (match d.ratedShipmentDetails.find?
          (fun rd : RatedShipmentDetail => decide (rd.rateType = some "ACCOUNT")) with
       | some rd => some rd
       | none => d.ratedShipmentDetails.head?).map (mkRawQuote d)) := by
  refine ⟨rfl, ?_⟩
  induction details with
  | nil => rfl
  | cons d rest ih =>
    rw [parseRawResults, List.filterMap_cons, ← bestRateOf_eq_spec]
    cases hsel : bestRateOf d.ratedShipmentDetails with
    | none => simpa using ih
    | some rd => simpa using ih

/-! ## Claim C2: dedup keeps the first-occurring cheapest entry per type -/

/-- `r` is the first-occurring minimum-charge entry of its service type in
`raw`: `raw` splits as `l₁ ++ r :: l₂` where every earlier entry of the
same type is strictly more expensive and every later entry of the same
type is at least as expensive. -/
def IsFirstMin (raw : List RawQuote) (r : RawQuote) : Prop :=
  ∃ l₁ l₂, raw = l₁ ++ r :: l₂ ∧
    (∀ x ∈ l₁, x.service_type = r.service_type → r.total_charge < x.total_charge) ∧
    (∀ x ∈ l₂, x.service_type = r.service_type → r.total_charge ≤ x.total_charge)

theorem IsFirstMin.le_all {raw : List RawQuote} {v : RawQuote} (h : IsFirstMin raw v) :
    ∀ x ∈ raw, x.service_type = v.service_type → v.total_charge ≤ x.total_charge := by
  rcases h with ⟨l₁, l₂, rfl, h₁, h₂⟩
  intro x hx ht
  rcases List.mem_append.mp hx with hx | hx
  · exact le_of_lt (h₁ x hx ht)
  · rcases List.mem_cons.mp hx with hx | hx
    · rw [hx]
    · exact h₂ x hx ht

/-- Extending the processed prefix on the right preserves first-min-ness
of an entry the new element does not undercut. -/
theorem IsFirstMin.extend {processed : List RawQuote} {v r : RawQuote}
    (h : IsFirstMin processed v)
    (hr : r.service_type = v.service_type → v.total_charge ≤ r.total_charge) :
    IsFirstMin (processed ++ [r]) v := by
  rcases h with ⟨l₁, l₂, rfl, h₁, h₂⟩
  refine ⟨l₁, l₂ ++ [r], by simp, h₁, ?_⟩
  intro x hx ht
  rcases List.mem_append.mp hx with hx | hx
  · exact h₂ x hx ht
  · rw [List.mem_singleton.mp hx] at ht ⊢
    exact hr ht

/-- The invariant maintained by the `best_by_type` dict while the dedup
loop has consumed `processed`: values carry their key as service type,
keys are distinct, every stored value is the first-occurring cheapest
entry of its type among `processed`, and every processed type has a key. -/
def BestInv (processed : List RawQuote) (acc : List (String × RawQuote)) : Prop :=
  (∀ p ∈ acc, p.2.service_type = p.1) ∧
  (acc.map Prod.fst).Nodup ∧
  (∀ p ∈ acc, IsFirstMin processed p.2) ∧
  (∀ x ∈ processed, ∃ p ∈ acc, p.1 = x.service_type)

theorem updateBest_types (acc : List (String × RawQuote)) (r : RawQuote)
    (h1 : ∀ p ∈ acc, p.2.service_type = p.1) :
    ∀ p ∈ updateBest acc r, p.2.service_type = p.1 := by
  induction acc with
  | nil =>
    intro p hp
    rw [updateBest] at hp
    rw [List.mem_singleton.mp hp]
  | cons kv rest ih =>
    intro p hp
    rw [updateBest] at hp
    split at hp
    · split at hp <;> rename_i hk _
      · rcases List.mem_cons.mp hp with hp | hp
        · rw [hp]
          exact hk.symm
        · exact h1 p (List.mem_cons_of_mem _ hp)
      · rcases List.mem_cons.mp hp with hp | hp
        · rw [hp]
          exact h1 kv (List.mem_cons_self _ _)
        · exact h1 p (List.mem_cons_of_mem _ hp)
    · rcases List.mem_cons.mp hp with hp | hp
      · rw [hp]
        exact h1 kv (List.mem_cons_self _ _)
      · exact ih (fun q hq => h1 q (List.mem_cons_of_mem _ hq)) p hp

theorem updateBest_keys (acc : List (String × RawQuote)) (r : RawQuote) :
    (updateBest acc r).map Prod.fst =
      if r.service_type ∈ acc.map Prod.fst then acc.map Prod.fst
      else acc.map Prod.fst ++ [r.service_type] := by
  induction acc with
  | nil => simp [updateBest]
  | cons kv rest ih =>
    rw [updateBest]
    by_cases hk : kv.1 = r.service_type
    · rw [if_pos hk]
      have hmem : r.service_type ∈ (kv :: rest).map Prod.fst := by
        rw [← hk]; simp
      rw [if_pos hmem]
      split <;> simp
    · rw [if_neg hk]
      by_cases hmem : r.service_type ∈ rest.map Prod.fst
      · have : r.service_type ∈ (kv :: rest).map Prod.fst := by
          simp [hmem]
        rw [if_pos this]
        simp only [List.map_cons, ih, if_pos hmem]
      · have hne : r.service_type ∉ (kv :: rest).map Prod.fst := by
          simp only [List.map_cons, List.mem_cons]
          push_neg
          exact ⟨fun h => hk h.symm, hmem⟩
        rw [if_neg hne]
        simp only [List.map_cons, ih, if_neg hmem, List.cons_append]


/-- Membership in the updated dict: an entry is either an old entry the
new quote does not beat, or the new quote stored under its own type after
beating (or not finding) the old entry of that type. -/
theorem updateBest_mem (acc : List (String × RawQuote)) (r : RawQuote)
    (h1 : ∀ p ∈ acc, p.2.service_type = p.1)
    (h2 : (acc.map Prod.fst).Nodup) :
    ∀ p ∈ updateBest acc r,
      (p ∈ acc ∧ (p.2.service_type = r.service_type →
        p.2.total_charge ≤ r.total_charge)) ∨
      (p = (r.service_type, r) ∧
        (∀ v, (r.service_type, v) ∈ acc → r.total_charge < v.total_charge)) := by
  induction acc with
  | nil =>
    intro p hp
    rw [updateBest] at hp
    refine Or.inr ⟨List.mem_singleton.mp hp, ?_⟩
    intro v hv
    simp at hv
  | cons kv rest ih =>
    intro p hp
    have h1r : ∀ q ∈ rest, q.2.service_type = q.1 :=
      fun q hq => h1 q (List.mem_cons_of_mem _ hq)
    have h2r : (rest.map Prod.fst).Nodup := (List.nodup_cons.mp h2).2
    have hknr : kv.1 ∉ rest.map Prod.fst := (List.nodup_cons.mp h2).1
    rw [updateBest] at hp
    split at hp <;> rename_i hk
    · split at hp <;> rename_i hlt
      · -- replaced: (k, r) :: rest
        rcases List.mem_cons.mp hp with hp | hp
        · refine Or.inr ⟨by rw [hp, hk], ?_⟩
          intro v hv
          rcases List.mem_cons.mp hv with hv | hv
          · have hveq : v = kv.2 := congrArg Prod.snd hv
            rw [hveq]
            exact hlt
          · exfalso
            have hmemk : r.service_type ∈ rest.map Prod.fst :=
              List.mem_map.mpr ⟨_, hv, rfl⟩
            rw [← hk] at hmemk
            exact hknr hmemk
        · refine Or.inl ⟨List.mem_cons_of_mem _ hp, ?_⟩
          intro ht
          exfalso
          have hpt : p.1 = r.service_type := by rw [← h1r p hp]; exact ht
          have hmemk : p.1 ∈ rest.map Prod.fst := List.mem_map.mpr ⟨_, hp, rfl⟩
          rw [hpt, ← hk] at hmemk
          exact hknr hmemk
      · -- kept: old entry survives, new quote is not strictly cheaper
        rcases List.mem_cons.mp hp with hp | hp
        · refine Or.inl ⟨by rw [hp]; exact List.mem_cons_self _ _, ?_⟩
          intro _
          have hsnd : p.2 = kv.2 := congrArg Prod.snd hp
          rw [hsnd]
          exact not_lt.mp hlt
        · refine Or.inl ⟨List.mem_cons_of_mem _ hp, ?_⟩
          intro ht
          exfalso
          have hpt : p.1 = r.service_type := by rw [← h1r p hp]; exact ht
          have hmemk : p.1 ∈ rest.map Prod.fst := List.mem_map.mpr ⟨_, hp, rfl⟩
          rw [hpt, ← hk] at hmemk
          exact hknr hmemk
    · -- other key: kv :: updateBest rest r
      rcases List.mem_cons.mp hp with hp | hp
      · refine Or.inl ⟨by rw [hp]; exact List.mem_cons_self _ _, ?_⟩
        intro ht
        exfalso
        apply hk
        rw [hp] at ht
        have hty : kv.2.service_type = kv.1 := h1 kv (List.mem_cons_self _ _)
        rw [← hty]
        exact ht
      · rcases ih h1r h2r p hp with ⟨hmem, himp⟩ | ⟨hpr, hmin⟩
        · exact Or.inl ⟨List.mem_cons_of_mem _ hmem, himp⟩
        · refine Or.inr ⟨hpr, ?_⟩
          intro v hv
          rcases List.mem_cons.mp hv with hv | hv
          · exact absurd (congrArg Prod.fst hv.symm) hk
          · exact hmin v hv

/-- One dedup-loop step preserves the dict invariant. -/
theorem updateBest_inv (processed : List RawQuote) (acc : List (String × RawQuote))
    (r : RawQuote) (h : BestInv processed acc) :
    BestInv (processed ++ [r]) (updateBest acc r) := by
  obtain ⟨h1, h2, h3, h4⟩ := h
  refine ⟨updateBest_types acc r h1, ?_, ?_, ?_⟩
  · rw [updateBest_keys]
    split
    · exact h2
    · rename_i hnot
      simp [List.nodup_append, h2, hnot]
  · intro p hp
    rcases updateBest_mem acc r h1 h2 p hp with ⟨hmem, himp⟩ | ⟨hpr, hmin⟩
    · exact (h3 p hmem).extend fun hrt => himp hrt.symm
    · have hsnd : p.2 = r := congrArg Prod.snd hpr
      rw [hsnd]
      have hall : ∀ x ∈ processed, x.service_type = r.service_type →
          r.total_charge < x.total_charge := by
        intro x hx ht
        obtain ⟨q, hq, hqt⟩ := h4 x hx
        have hq2t : q.2.service_type = q.1 := h1 q hq
        have hq1 : q.1 = r.service_type := by rw [hqt, ht]
        have hqmem : (r.service_type, q.2) ∈ acc := by
          have hqe : (r.service_type, q.2) = q := by rw [← hq1]
          rw [hqe]
          exact hq
        have hrlt : r.total_charge < q.2.total_charge := hmin q.2 hqmem
        have hle : q.2.total_charge ≤ x.total_charge :=
          (h3 q hq).le_all x hx (by rw [hq2t, hqt])
        exact lt_of_lt_of_le hrlt hle
      exact ⟨processed, [], by simp, hall, by simp⟩
  · intro x hx
    rcases List.mem_append.mp hx with hx | hx
    · obtain ⟨q, hq, hqt⟩ := h4 x hx
      have hkey : q.1 ∈ (updateBest acc r).map Prod.fst := by
        rw [updateBest_keys]
        split
        · exact List.mem_map.mpr ⟨q, hq, rfl⟩
        · exact List.mem_append.mpr (Or.inl (List.mem_map.mpr ⟨q, hq, rfl⟩))
      obtain ⟨p, hp, hpfst⟩ := List.mem_map.mp hkey
      exact ⟨p, hp, by rw [hpfst, hqt]⟩
    · rw [List.mem_singleton.mp hx]
      have hkey : r.service_type ∈ (updateBest acc r).map Prod.fst := by
        rw [updateBest_keys]
        split
        · rename_i hin
          exact hin
        · exact List.mem_append.mpr (Or.inr (by simp))
      obtain ⟨p, hp, hpfst⟩ := List.mem_map.mp hkey
      exact ⟨p, hp, hpfst⟩

/-- The dedup fold maintains the dict invariant along the whole input. -/
theorem foldl_updateBest_inv (raw : List RawQuote) :
    ∀ processed acc, BestInv processed acc →
      BestInv (processed ++ raw) (raw.foldl updateBest acc) := by
  induction raw with
  | nil =>
    intro processed acc h
    simpa using h
  | cons r rest ih =>
    intro processed acc h
    have hstep := updateBest_inv processed acc r h
    have hrec := ih (processed ++ [r]) (updateBest acc r) hstep
    simpa [List.append_assoc] using hrec

theorem bestInv_final (raw : List RawQuote) :
    BestInv raw (raw.foldl updateBest []) := by
  have h := foldl_updateBest_inv raw [] []
    ⟨by simp, by simp, by simp, by simp⟩
  simpa using h

theorem chargeAsc_total (a b : RawQuote) : chargeAsc a b ∨ chargeAsc b a := by
  rcases le_total a.total_charge b.total_charge with h | h
  · exact Or.inl (by simpa [chargeAsc] using h)
  · exact Or.inr (by simpa [chargeAsc] using h)

theorem chargeAsc_trans (a b c : RawQuote)
    (hab : chargeAsc a b = true) (hbc : chargeAsc b c = true) : chargeAsc a c = true := by
  rw [chargeAsc, decide_eq_true_eq] at hab hbc ⊢
  exact le_trans hab hbc

/-- C2: the dedup/sort stage of `parse_rate_response` returns pairwise
distinct `service_type`s; every returned entry is the first-occurring
minimum-`total_charge` entry of its type in the input (ties broken by
input order); every input type is represented; and the output is sorted
ascending by `total_charge`. -/
theorem normalize_rates_spec (raw : List RawQuote) :
    ((normalize_rates raw).Pairwise fun a b => a.service_type ≠ b.service_type) ∧
    (∀ r ∈ normalize_rates raw, IsFirstMin raw r) ∧
    (∀ x ∈ raw, ∃ r ∈ normalize_rates raw, r.service_type = x.service_type) ∧
    ((normalize_rates raw).Pairwise fun a b => a.total_charge ≤ b.total_charge) := by
  obtain ⟨h1, h2, h3, h4⟩ := bestInv_final raw
  have hperm : (normalize_rates raw).Perm ((raw.foldl updateBest []).map Prod.snd) :=
    stableSort_perm chargeAsc _
  refine ⟨?_, ?_, ?_, ?_⟩
  · have hkeys : (raw.foldl updateBest []).Pairwise (fun p q => p.1 ≠ q.1) :=
      List.pairwise_map.mp h2
    have hvals : ((raw.foldl updateBest []).map Prod.snd).Pairwise
        (fun a b => a.service_type ≠ b.service_type) := by
      rw [List.pairwise_map]
      refine hkeys.imp_of_mem ?_
      intro p q hp hq hne
      rw [h1 p hp, h1 q hq]
      exact hne
    exact (List.Perm.pairwise_iff (fun h => Ne.symm h) hperm).mpr hvals
  · intro r hr
    obtain ⟨p, hp, hpr⟩ := List.mem_map.mp (hperm.mem_iff.mp hr)
    rw [← hpr]
    exact h3 p hp
  · intro x hx
    obtain ⟨p, hp, hpt⟩ := h4 x hx
    refine ⟨p.2, hperm.mem_iff.mpr (List.mem_map.mpr ⟨p, hp, rfl⟩), ?_⟩
    rw [h1 p hp, hpt]
  · have hpw := stableSort_pairwise chargeAsc chargeAsc_total chargeAsc_trans
      ((raw.foldl updateBest []).map Prod.snd)
    exact hpw.imp fun h => by
      rw [chargeAsc, decide_eq_true_eq] at h
      exact h

/-- Witness for C2 at the spec's own example
`[{A,100},{A,90},{B,200}]`. -/
theorem normalize_rates_spec_witness :
    ((normalize_rates [⟨"A", "A", 100, "TWD"⟩, ⟨"A", "A", 90, "TWD"⟩,
        ⟨"B", "B", 200, "TWD"⟩]).Pairwise fun a b => a.service_type ≠ b.service_type) ∧
    (∀ r ∈ normalize_rates [⟨"A", "A", 100, "TWD"⟩, ⟨"A", "A", 90, "TWD"⟩,
        ⟨"B", "B", 200, "TWD"⟩],
      IsFirstMin [⟨"A", "A", 100, "TWD"⟩, ⟨"A", "A", 90, "TWD"⟩, ⟨"B", "B", 200, "TWD"⟩] r) ∧
    (∀ x ∈ ([⟨"A", "A", 100, "TWD"⟩, ⟨"A", "A", 90, "TWD"⟩,
        ⟨"B", "B", 200, "TWD"⟩] : List RawQuote),
      ∃ r ∈ normalize_rates [⟨"A", "A", 100, "TWD"⟩, ⟨"A", "A", 90, "TWD"⟩,
        ⟨"B", "B", 200, "TWD"⟩], r.service_type = x.service_type) ∧
    ((normalize_rates [⟨"A", "A", 100, "TWD"⟩, ⟨"A", "A", 90, "TWD"⟩,
        ⟨"B", "B", 200, "TWD"⟩]).Pairwise fun a b => a.total_charge ≤ b.total_charge) :=
  normalize_rates_spec _

/-! ## Claim C1: the code follows the spec's greedy algorithm -/

/-- Modelled from the spec (§4.1 step 2): for each option in sorted order,
`count = remaining // sets_per_carton`; if `count > 0`, record a breakdown
entry and subtract `count * sets_per_carton` from `remaining` (no skip
guards — the spec states none). -/
def specLoop (remaining : ℤ) : List PackingOption → List PackingBreakdown × ℤ
  | [] => ([], remaining)
  | o :: rest =>
    if 0 < Int.fdiv remaining o.sets_per_carton then
      let r := specLoop
        (remaining - Int.fdiv remaining o.sets_per_carton * o.sets_per_carton) rest
      (⟨o.sets_per_carton, o.weight_kg, Int.fdiv remaining o.sets_per_carton⟩ :: r.1, r.2)
    else
      specLoop remaining rest

/-- Modelled from the spec (§4.1): sort descending by `sets_per_carton`,
run the greedy loop, and if `remaining > 0` afterwards append an entry for
the option with the *minimum* `sets_per_carton` among `options` with
`count = ceil(remaining / smallest.sets_per_carton)`; then total up. -/
def compute_shipment_spec (options : List PackingOption) (q : ℤ) : ShipmentResult :=
  let sorted := stableSort optDesc options
  let lr := specLoop q sorted
  let breakdown :=
    if 0 < lr.2 then
      match options.argmin (·.sets_per_carton) with
      | some m => lr.1 ++
          [⟨m.sets_per_carton, m.weight_kg, mathCeil ((lr.2 : ℚ) / (m.sets_per_carton : ℚ))⟩]
      | none => lr.1
    else
      lr.1
  mkShipmentResult breakdown

/-- On options with positive `sets_per_carton`, the code's guarded loop
and the spec's unguarded loop coincide (when `remaining ≤ 0` the computed
floor quotient is `≤ 0`, so the spec records nothing either). -/
theorem greedyLoop_eq_specLoop (remaining : ℤ) (l : List PackingOption)
    (hs : ∀ o ∈ l, 0 < o.sets_per_carton) :
    greedyLoop remaining l = specLoop remaining l := by
  induction l generalizing remaining with
  | nil => rfl
  | cons o rest ih =>
    have hso : 0 < o.sets_per_carton := hs o (List.mem_cons_self _ _)
    have hsr : ∀ p ∈ rest, 0 < p.sets_per_carton :=
      fun p hp => hs p (List.mem_cons_of_mem _ hp)
    simp only [greedyLoop, specLoop]
    by_cases hr : remaining ≤ 0
    · rw [if_pos (Or.inr hr)]
      have hdiv : Int.fdiv remaining o.sets_per_carton ≤ 0 := by
        rw [Int.fdiv_eq_ediv _ (le_of_lt hso)]
        calc remaining / o.sets_per_carton ≤ 0 / o.sets_per_carton :=
              Int.ediv_le_ediv hso hr
          _ = 0 := Int.zero_ediv _
      rw [if_neg (not_lt.mpr hdiv)]
      exact ih remaining hsr
    · rw [if_neg (by push_neg; exact ⟨hso, not_le.mp hr⟩)]
      by_cases hdiv : 0 < Int.fdiv remaining o.sets_per_carton
      · rw [if_pos hdiv, if_pos hdiv, ih _ hsr]
      · rw [if_neg hdiv, if_neg hdiv]
        exact ih remaining hsr

/-- In a list whose `sets_per_carton` values are pairwise distinct, two
members with the same value are the same element. -/
theorem mem_eq_of_pairwise_ne {l : List PackingOption}
    (h : l.Pairwise fun a b => a.sets_per_carton ≠ b.sets_per_carton)
    {x y : PackingOption} (hx : x ∈ l) (hy : y ∈ l)
    (hk : x.sets_per_carton = y.sets_per_carton) : x = y := by
  induction l with
  | nil => simp at hx
  | cons a l ih =>
    rcases List.pairwise_cons.mp h with ⟨ha, hl⟩
    rcases List.mem_cons.mp hx with hx | hx <;> rcases List.mem_cons.mp hy with hy | hy
    · rw [hx, hy]
    · exfalso
      apply ha y hy
      rw [← hx]
      exact hk
    · exfalso
      apply ha x hx
      rw [← hy]
      exact hk.symm
    · exact ih hl hx hy

/-- The last element of a list sorted descending by `sets_per_carton` has
the minimum `sets_per_carton`. -/
theorem getLast_min (l : List PackingOption) (gl : PackingOption)
    (h : l.getLast? = some gl) (hpw : l.Pairwise (optDesc · ·)) :
    ∀ x ∈ l, gl.sets_per_carton ≤ x.sets_per_carton := by
  induction l with
  | nil => simp at h
  | cons a l ih =>
    rcases List.pairwise_cons.mp hpw with ⟨ha, hl⟩
    cases l with
    | nil =>
      intro x hx
      rw [List.getLast?_singleton] at h
      rw [List.mem_singleton.mp hx, ← Option.some.injEq _ _ |>.mp h]
    | cons b l' =>
      rw [List.getLast?_cons_cons] at h
      intro x hx
      rcases List.mem_cons.mp hx with hx | hx
      · have hgl : gl ∈ b :: l' := List.mem_of_mem_getLast? h
        have := ha gl hgl
        rw [optDesc, decide_eq_true_eq] at this
        rw [hx]
        exact this
      · exact ih h hl x hx

theorem optDesc_total (a b : PackingOption) : optDesc a b ∨ optDesc b a := by
  rcases le_total a.sets_per_carton b.sets_per_carton with h | h
  · exact Or.inr (by simpa [optDesc] using h)
  · exact Or.inl (by simpa [optDesc] using h)

theorem optDesc_trans (a b c : PackingOption)
    (hab : optDesc a b = true) (hbc : optDesc b c = true) : optDesc a c = true := by
  rw [optDesc, decide_eq_true_eq] at hab hbc ⊢
  exact le_trans hbc hab

/-- C1: for options whose `sets_per_carton` are pairwise distinct and
positive, and quantity ≥ 1, `calculate_shipment` computes exactly the
spec's greedy largest-first algorithm `compute_shipment_spec` (the code's
`opts_sorted[-1]` is the option of minimum `sets_per_carton`, unique under
distinctness). -/
theorem calculate_shipment_follows_spec (opts : List PackingOption) (q : ℤ)
    (hdist : opts.Pairwise fun a b => a.sets_per_carton ≠ b.sets_per_carton)
    (hs : ∀ o ∈ opts, 0 < o.sets_per_carton)
    (hq : 1 ≤ q) :
    calculate_shipment opts q = .ok (compute_shipment_spec opts q) := by
  have hs' : ∀ o ∈ stableSort optDesc opts, 0 < o.sets_per_carton := fun o ho =>
    hs o ((mem_stableSort optDesc opts o).mp ho)
  have hloop := greedyLoop_eq_specLoop q (stableSort optDesc opts) hs'
  simp only [calculate_shipment, compute_shipment_spec, hloop]
  by_cases hrem : 0 < (specLoop q (stableSort optDesc opts)).2
  · rw [if_pos hrem, if_pos hrem]
    cases hgl : (stableSort optDesc opts).getLast? with
    | none =>
      have hsorted_nil : stableSort optDesc opts = [] := List.getLast?_eq_none_iff.mp hgl
      have hopts_nil : opts = [] := by
        have hp : opts.Perm [] :=
          (stableSort_perm optDesc opts).symm.trans (by rw [hsorted_nil])
        exact hp.eq_nil
      rw [hopts_nil]
      rfl
    | some gl =>
      have hglmem : gl ∈ opts :=
        (mem_stableSort optDesc opts gl).mp (List.mem_of_mem_getLast? hgl)
      have hone : opts ≠ [] := List.ne_nil_of_mem hglmem
      obtain ⟨m, hm⟩ : ∃ m, opts.argmin (·.sets_per_carton) = some m := by
        cases harg : opts.argmin (·.sets_per_carton) with
        | none => exact absurd (List.argmin_eq_none.mp harg) hone
        | some m => exact ⟨m, rfl⟩
      have hm_mem : m ∈ opts := List.argmin_mem (Option.mem_def.mpr hm)
      have hm_min : ∀ x ∈ opts, m.sets_per_carton ≤ x.sets_per_carton := fun x hx =>
        List.le_of_mem_argmin hx (Option.mem_def.mpr hm)
      have hgl_min : ∀ x ∈ opts, gl.sets_per_carton ≤ x.sets_per_carton := fun x hx =>
        getLast_min _ gl hgl (stableSort_pairwise optDesc optDesc_total optDesc_trans opts)
          x ((mem_stableSort optDesc opts x).mpr hx)
      have hglm : gl = m := mem_eq_of_pairwise_ne hdist hglmem hm_mem
        (le_antisymm (hgl_min m hm_mem) (hm_min gl hglmem))
      rw [hm]
      dsimp only
      rw [if_neg (ne_of_gt (hs gl hglmem)), hglm]
  · rw [if_neg hrem, if_neg hrem]

/-- Witness for C1 at a concrete input with distinct positive carton
sizes. -/
theorem calculate_shipment_follows_spec_witness :
    calculate_shipment [⟨4, 15⟩, ⟨2, 8⟩] 5 =
      .ok (compute_shipment_spec [⟨4, 15⟩, ⟨2, 8⟩] 5) :=
  calculate_shipment_follows_spec [⟨4, 15⟩, ⟨2, 8⟩] 5
    (by
      refine List.pairwise_cons.mpr ⟨?_, ?_⟩
      · intro b hb
        rw [List.mem_singleton.mp hb]
        norm_num
      · simp)
    (by
      intro o ho
      rcases List.mem_cons.mp ho with h | h
      · rw [h]; norm_num
      · rw [List.mem_singleton.mp h]; norm_num)
    (by norm_num)
